import Mathlib

/-!
Verification development for the figure-extraction pipeline of
`extract_source.py` (arxiv-scout).  Python strings are modelled as
`List Char`; the file system handed to the document assembler and the
image index are modelled as association lists from path strings to
contents (resp. resolved file locations), matching the dictionaries the
source builds.  All scanners below are character-level embeddings of the
regular expressions compiled in the source.
-/

/-- Match a literal character sequence `pat` at the head of `l`;
return the remaining characters on success. -/
def stripLit : List Char → List Char → Option (List Char)
  | [], l => some l
  | _ :: _, [] => none
  | c :: cs, x :: xs => if x = c then stripLit cs xs else none

/-- Consume characters up to the first closing brace (the regex class
`[^}]*` followed by the closing brace); return the consumed characters
and the rest after the brace. -/
def takeRefAux : List Char → Option (List Char × List Char)
  | [] => none
  | c :: rest =>
    if c = '\x7d' then some ([], rest)
    else
      match takeRefAux rest with
      | some (a, r) => some (c :: a, r)
      | none => none

/-- Match `\x7b[^}]+\x7d` (a braced, non-empty argument group):
return the group and the rest. -/
def takeBraceRef (l : List Char) : Option (List Char × List Char) :=
  match l with
  | [] => none
  | c :: rest =>
    if c = '\x7b' then
      match takeRefAux rest with
      | some (a, r) => if a = [] then none else some (a, r)
      | none => none
    else none

/-- Tail of the directive regex after `\input\x7b` / `\include\x7b`:
`[^}]+\x7d`, returning the captured reference and the rest. -/
def matchRefTail (rest : List Char) : Option (List Char × List Char) :=
  match takeRefAux rest with
  | some (a, r) => if a = [] then none else some (a, r)
  | none => none

/-- The inclusion-directive regex
`\\(?:input|include)\x7b([^}]+)\x7d` matched at the head of `l`:
returns the captured file reference and the rest of the text. -/
def matchInputDirective (l : List Char) : Option (List Char × List Char) :=
  match stripLit (String.toList "\\input\x7b") l with
  | some rest => matchRefTail rest
  | none =>
    match stripLit (String.toList "\\include\x7b") l with
    | some rest => matchRefTail rest
    | none => none

/-- A token of the scanned document text: a single passed-through
character, or an inclusion directive with its captured reference. -/
inductive TexTok where
  | text : Char → TexTok
  | inp : List Char → TexTok
deriving DecidableEq

/-- Left-to-right, non-overlapping scan of a document for inclusion
directives, with explicit fuel (each step consumes at least one
character, so `scanTex` below supplies sufficient fuel). -/
def scanTexF : Nat → List Char → List TexTok
  | 0, _ => []
  | _ + 1, [] => []
  | fuel + 1, c :: rest =>
    match matchInputDirective (c :: rest) with
    | some (ref, r) => TexTok.inp ref :: scanTexF fuel r
    | none => TexTok.text c :: scanTexF fuel rest

/-- Scan of a document for inclusion directives
(`input_pattern.finditer` in `resolve_tex_content`). -/
def scanTex (l : List Char) : List TexTok := scanTexF l.length l

/-- Directory part of a relative path (`tex_path.parent`); the tree
root is the empty path. -/
def dirOf (p : List Char) : List Char :=
  match (p.reverse.dropWhile (fun c => c ≠ '/')) with
  | [] => []
  | _ :: rest => rest.reverse

/-- Join `dir / name` on relative paths rooted at the source tree. -/
def joinPath (dir p : List Char) : List Char :=
  if dir = [] then p else dir ++ '/' :: p

/-- Embedding of `_find_tex_file`: try, in order, the reference
relative to the including file's directory and to the tree root, each
without and with the `.tex` extension; return the first existing
file. -/
def find_tex_file (fs : List (List Char × List Char)) (ref parent : List Char) :
    Option (List Char) :=
  [joinPath parent ref, joinPath parent (ref ++ String.toList ".tex"),
   ref, ref ++ String.toList ".tex"].find?
    (fun c => (List.lookup c fs).isSome)

/-- Process the scanned tokens of one file: pass text through, splice
resolved inclusions via `resolver`, threading the visited set. -/
def resolveToks (resolver : List Char → List (List Char) → List Char × List (List Char))
    (fs : List (List Char × List Char)) (parent : List Char) :
    List TexTok → List (List Char) → List Char × List (List Char)
  | [], visited => ([], visited)
  | TexTok.text c :: toks, visited =>
    let r := resolveToks resolver fs parent toks visited
    (c :: r.1, r.2)
  | TexTok.inp ref :: toks, visited =>
    match find_tex_file fs ref parent with
    | none => resolveToks resolver fs parent toks visited
    | some child =>
      let r1 := resolver child visited
      let r2 := resolveToks resolver fs parent toks r1.2
      (r1.1 ++ r2.1, r2.2)

/-- Embedding of `resolve_tex_content`: recursively splice
`\input`/`\include` targets, guarding against reprocessing with the
`visited` set (returned alongside the text).  The extra fuel argument
bounds the recursion depth; `resolve_stable_of_lt` below shows any fuel
beyond the number of files gives the same result, so the Python
recursion (whose depth the visited set bounds) is captured exactly. -/
def resolve_tex_content (fs : List (List Char × List Char)) :
    Nat → List Char → List (List Char) → List Char × List (List Char)
  | 0, _, visited => ([], visited)
  | fuel + 1, path, visited =>
    if path ∈ visited then ([], visited)
    else
      match List.lookup path fs with
      | none => ([], path :: visited)
      | some content =>
        resolveToks (fun p v => resolve_tex_content fs fuel p v) fs
          (dirOf path) (scanTex content) (path :: visited)

/-- Top-level document assembly: resolve from the root file with an
empty visited set and sufficient fuel. -/
def assembleTex (fs : List (List Char × List Char)) (root : List Char) : List Char :=
  (resolve_tex_content fs (fs.length + 1) root []).1

/-- Tail of the environment markers: `\*?\x7d` (optional star, then the
closing brace). -/
def matchStarBrace (rest : List Char) : Option (List Char) :=
  match rest with
  | [] => none
  | c :: rest2 =>
    if c = '*' then
      match rest2 with
      | [] => none
      | c2 :: r => if c2 = '\x7d' then some r else none
    else if c = '\x7d' then some rest2
    else none

/-- Match the opening marker `\begin\x7bfigure\*?\x7d` at the head of
`l`; return the rest on success. -/
def matchFigBegin (l : List Char) : Option (List Char) :=
  match stripLit (String.toList "\\begin\x7bfigure") l with
  | none => none
  | some rest => matchStarBrace rest

/-- Match the closing marker `\end\x7bfigure\*?\x7d` at the head of
`l`; return the rest on success. -/
def matchFigEnd (l : List Char) : Option (List Char) :=
  match stripLit (String.toList "\\end\x7bfigure") l with
  | none => none
  | some rest => matchStarBrace rest

/-- The non-greedy figure body `(.*?)` followed by the end marker:
split `l` at the first occurrence of `\end\x7bfigure\*?\x7d`, returning
the body before the marker and the text after it. -/
def splitAtEnd : List Char → Option (List Char × List Char)
  | [] => none
  | c :: rest =>
    match matchFigEnd (c :: rest) with
    | some after => some ([], after)
    | none =>
      match splitAtEnd rest with
      | some (b, a) => some (c :: b, a)
      | none => none

/-- Fuelled left-to-right scan for non-overlapping matches of the
figure-environment regex
`\begin\x7bfigure\*?\x7d(.*?)\end\x7bfigure\*?\x7d` (DOTALL): find the
next opening marker, take the shortest body up to a closing marker, and
continue after it.  An opening marker with no closing marker after it
ends the scan with no further match, exactly as `finditer` does. -/
def findFigSpansF : Nat → List Char → List (List Char)
  | 0, _ => []
  | _ + 1, [] => []
  | fuel + 1, c :: rest =>
    match matchFigBegin (c :: rest) with
    | some after =>
      match splitAtEnd after with
      | some (body, rest2) => body :: findFigSpansF fuel rest2
      | none => []
    | none => findFigSpansF fuel rest

/-- The ordered bodies of the figure environments of a text
(`fig_pattern.finditer` in `parse_figures_from_tex`). -/
def findFigSpans (l : List Char) : List (List Char) := findFigSpansF l.length l

/-- The optional bracketed option group `(?:\[.*?\])?` followed by the
mandatory braced argument, entered after the opening `[`: lazily extend
the group to each following `]` in turn and try the braced argument
there, exactly as the regex backtracks.  When `dotall` is false the
group may not span a newline (the pattern is compiled without
`re.DOTALL`). -/
def scanOptBr (dotall : Bool) : List Char → Option (List Char × List Char)
  | [] => none
  | c :: rest =>
    if c = ']' then
      match takeBraceRef rest with
      | some r => some r
      | none => scanOptBr dotall rest
    else if !dotall && c = '\n' then none
    else scanOptBr dotall rest

/-- The image-reference regex
`\\includegraphics(?:\[.*?\])?\x7b([^}]+)\x7d` (no DOTALL) matched at
the head of `l`: the optional greedy group is attempted first, with the
lazy backtracking of `scanOptBr`; without a leading `[` the braced
argument must follow directly. -/
def matchIncludegraphics (l : List Char) : Option (List Char × List Char) :=
  match stripLit (String.toList "\\includegraphics") l with
  | none => none
  | some rest =>
    match rest with
    | [] => none
    | c :: rest2 =>
      if c = '[' then scanOptBr false rest2
      else takeBraceRef (c :: rest2)

/-- Fuelled `findall` of the image-reference regex over a figure body:
every captured reference, in order of occurrence. -/
def findImgRefsF : Nat → List Char → List (List Char)
  | 0, _ => []
  | _ + 1, [] => []
  | fuel + 1, c :: rest =>
    match matchIncludegraphics (c :: rest) with
    | some (ref, r) => ref :: findImgRefsF fuel r
    | none => findImgRefsF fuel rest

/-- Embedding of `img_pattern.findall(body)` in `parse_figures_from_tex`. -/
def findImgRefs (l : List Char) : List (List Char) := findImgRefsF l.length l

/-- The caption regex `\\caption(?:\[.*?\])?\x7b(.+?)\x7d` (compiled
with DOTALL, so the option group may span newlines) matched at the head
of `l`: returns the captured caption text. -/
def matchCaptionAt (l : List Char) : Option (List Char) :=
  match stripLit (String.toList "\\caption") l with
  | none => none
  | some rest =>
    match rest with
    | [] => none
    | c :: rest2 =>
      if c = '[' then (scanOptBr true rest2).map Prod.fst
      else (takeBraceRef (c :: rest2)).map Prod.fst

/-- Embedding of `cap_pattern.search(body)`: the first caption match of a figure
body, scanning left to right. -/
def findCaption : List Char → Option (List Char)
  | [] => none
  | c :: rest =>
    match matchCaptionAt (c :: rest) with
    | some a => some a
    | none => findCaption rest

/-- Python `str.strip()` / `str.split()` whitespace. -/
def pyIsSpace (c : Char) : Bool :=
  c = ' ' || c = '\t' || c = '\n' || c = '\x0b' || c = '\x0c' || c = '\r'

/-- Python `str.strip()`: remove leading and trailing whitespace. -/
def pyStrip (l : List Char) : List Char :=
  ((l.dropWhile pyIsSpace).reverse.dropWhile pyIsSpace).reverse

def isAsciiLetter (c : Char) : Bool :=
  ('a' ≤ c && c ≤ 'z') || ('A' ≤ c && c ≤ 'Z')

/-- One inline formatting command `\\[a-zA-Z]+\x7b([^}]*)\x7d`, entered
after the backslash: the maximal letter run, then a braced (possibly
empty) argument; returns the argument and the rest. -/
def matchFmtCmd (l : List Char) : Option (List Char × List Char) :=
  let letters := l.takeWhile isAsciiLetter
  if letters = [] then none
  else
    match l.drop letters.length with
    | c :: rest =>
      if c = '\x7b' then takeRefAux rest
      else none
    | [] => none

/-- Embedding of `re.sub(r"\\[a-zA-Z]+\x7b([^}]*)\x7d", r"\1", caption)`: replace
each inline formatting command by its braced argument, left to right,
non-overlapping, without rescanning the substituted text. -/
def stripFmtCmdsF : Nat → List Char → List Char
  | 0, _ => []
  | _ + 1, [] => []
  | fuel + 1, c :: rest =>
    if c = '\\' then
      match matchFmtCmd rest with
      | some (a, r) => a ++ stripFmtCmdsF fuel r
      | none => c :: stripFmtCmdsF fuel rest
    else c :: stripFmtCmdsF fuel rest

def stripFmtCmds (l : List Char) : List Char := stripFmtCmdsF l.length l

/-- Embedding of `re.sub(r"[\x7b\x7d]", "", caption)`: drop all brace characters. -/
def removeBraces (l : List Char) : List Char :=
  l.filter (fun c => !(c = '\x7b' || c = '\x7d'))

/-- Embedding of `" ".join(caption.split())`: collapse whitespace runs to single
spaces and trim. -/
def collapseWs (l : List Char) : List Char :=
  List.intercalate [' '] ((l.splitOnP pyIsSpace).filter (fun w => !w.isEmpty))

/-- The caption-cleaning pipeline of `parse_figures_from_tex` before
the length cut: formatting-command substitution, brace removal,
whitespace collapsing. -/
def clean_caption_core (l : List Char) : List Char :=
  collapseWs (removeBraces (stripFmtCmds l))

/-- The final length cut: captions longer than 120 characters become
their first 117 characters plus `"..."`. -/
def truncateCaption (l : List Char) : List Char :=
  if 120 < l.length then l.take 117 ++ String.toList "..." else l

/-- The full caption treatment applied to a (already `strip()`ped)
caption match. -/
def clean_caption (l : List Char) : List Char :=
  truncateCaption (clean_caption_core l)

/-- One figure environment record produced by
`parse_figures_from_tex`. -/
structure FigureRec where
  number : Nat
  image_paths : List (List Char)
  caption : List Char
deriving DecidableEq

/-- Embedding of `parse_figures_from_tex`: figure environments in
order of their opening markers, numbered from 1, each with its ordered
image references and cleaned caption. -/
def parse_figures_from_tex (tex : List Char) : List FigureRec :=
  (findFigSpans tex).enum.map (fun p =>
    { number := p.1 + 1,
      image_paths := findImgRefs p.2,
      caption := clean_caption (match findCaption p.2 with
                                | some raw => pyStrip raw
                                | none => []) })

/-- Final path component (`os.path.basename` on slash-separated
relative paths, also `Path.name`). -/
def lastSegment (p : List Char) : List Char :=
  (p.reverse.takeWhile (fun c => c ≠ '/')).reverse

/-- Index of the last `'.'` of `l`, if any. -/
def lastDotIdx (l : List Char) : Option Nat :=
  match l.reverse.findIdx? (fun c => c = '.') with
  | none => none
  | some j => some (l.length - 1 - j)

/-- Embedding of `key.rsplit(".", 1)[0] if "." in key else key`: everything before
the last dot, the whole string when it has no dot. -/
def rsplitDot (l : List Char) : List Char :=
  match lastDotIdx l with
  | none => l
  | some i => l.take i

/-- Embedding of `pathlib.Path.suffix`: the extension of the final component,
including the dot; empty when the name has no inner dot. -/
def path_suffix (p : List Char) : List Char :=
  let name := lastSegment p
  match lastDotIdx name with
  | none => []
  | some i => if 0 < i ∧ i < name.length - 1 then name.drop i else []

/-- Embedding of `resolved.suffix.lower()`. -/
def suffixLower (p : List Char) : List Char :=
  (path_suffix p).map Char.toLower

/-- Python `str.endswith`. -/
def endsWithL (l suf : List Char) : Bool :=
  decide (suf.length ≤ l.length) && l.drop (l.length - suf.length) = suf

/-- Embedding of `img_ref.lstrip("./")`: remove the maximal leading run of `'.'`
and `'/'` characters. -/
def lstripDotSlash (l : List Char) : List Char :=
  l.dropWhile (fun c => c = '.' || c = '/')

/-- Stage 3 of `resolve_image`: for each extension of the preference
list, append it to the (qualifier-stripped) reference unless already
present, drop everything from the last dot, and look the result up. -/
def tryExtensions (clean : List Char) (images : List (List Char × List Char)) :
    List (List Char) → Option (List Char)
  | [] => none
  | ext :: exts =>
    let key := if endsWithL clean ext then clean else clean ++ ext
    let keyNoExt := rsplitDot key
    match List.lookup keyNoExt images with
    | some p => some p
    | none => tryExtensions clean images exts

/-- Stage 4 of `resolve_image`: first index entry whose key's basename
equals the reference's extension-stripped basename. -/
def basenameScan (baseNoExt : List Char) :
    List (List Char × List Char) → Option (List Char)
  | [] => none
  | (k, p) :: rest =>
    if lastSegment k = baseNoExt then some p else basenameScan baseNoExt rest

/-- Stages 2–4 of `resolve_image`, operating on the qualifier-stripped
reference `clean`: direct lookup, then the extension-preference stage,
then the basename fallback. -/
def resolve_image_fallback (clean : List Char)
    (images : List (List Char × List Char)) : Option (List Char) :=
  match List.lookup clean images with
  | some p => some p
  | none =>
    match tryExtensions clean images
        [String.toList ".png", String.toList ".pdf", String.toList ".jpg",
         String.toList ".jpeg", String.toList ".eps", String.toList ".svg"] with
    | some p => some p
    | none => basenameScan (rsplitDot (lastSegment clean)) images

/-- Embedding of `resolve_image`: staged, first-match-wins resolution
of a raw image reference against the image index — exact match first,
then the fallback stages on the qualifier-stripped reference. -/
def resolve_image (img_ref : List Char) (images : List (List Char × List Char)) :
    Option (List Char) :=
  match List.lookup img_ref images with
  | some p => some p
  | none => resolve_image_fallback (lstripDotSlash img_ref) images

/-- Constant `MAX_FIGURES`: save at most this many figures. -/
def MAX_FIGURES : Nat := 10

/-- One record of the `saved_figures` list built by
`extract_figures`. -/
structure SavedFig where
  number : Nat
  caption : List Char
  filename : List Char
deriving DecidableEq

/-- The destination filename `figure<N><ext>`. -/
def figFileName (n : Nat) (ext : List Char) : List Char :=
  String.toList ("figure" ++ toString n) ++ ext

/-- The inner loop of `extract_figures` over one figure's image
references: resolve each in order; skip unresolvable references and
EPS files; for a PDF, rasterize (success of the external `pdftoppm`
call is the oracle `convertOk`) and save as `.png`, falling back to
copying the original as `.pdf`; any other extension is copied
verbatim.  Returns the saved filename of the first success. -/
def save_for_refs (images : List (List Char × List Char))
    (convertOk : List Char → Bool) (n : Nat) : List (List Char) → Option (List Char)
  | [] => none
  | ref :: rest =>
    match resolve_image ref images with
    | none => save_for_refs images convertOk n rest
    | some resolved =>
      let ext := suffixLower resolved
      if ext = String.toList ".eps" then save_for_refs images convertOk n rest
      else if ext = String.toList ".pdf" then
        if convertOk resolved then some (figFileName n (String.toList ".png"))
        else some (figFileName n (String.toList ".pdf"))
      else some (figFileName n ext)

/-- The saving loop of `extract_figures` over the parsed figure
records: stop once `MAX_FIGURES` results have been accumulated, else
append at most one SavedFig per record. -/
def extract_loop (images : List (List Char × List Char))
    (convertOk : List Char → Bool) :
    List FigureRec → List SavedFig → List SavedFig
  | [], saved => saved
  | fig :: rest, saved =>
    if MAX_FIGURES ≤ saved.length then saved
    else
      match save_for_refs images convertOk fig.number fig.image_paths with
      | none => extract_loop images convertOk rest saved
      | some fname =>
        extract_loop images convertOk rest
          (saved ++ [{ number := fig.number, caption := fig.caption, filename := fname }])

/-- The figure-extraction portion of `extract_figures` (the part after
download/unpack): parse the assembled text and run the saving loop
against the image index, with `convertOk` standing for success of the
external PDF rasterizer. -/
def extract_figures (images : List (List Char × List Char))
    (convertOk : List Char → Bool) (tex : List Char) : List SavedFig :=
  extract_loop images convertOk (parse_figures_from_tex tex) []

/-- Fixture: a minimal figure environment referencing image `f`. -/
def figSrc : List Char :=
  String.toList "\\begin\x7bfigure\x7d\\includegraphics\x7bf\x7d\\end\x7bfigure\x7d"

/-- Fixture: fifteen consecutive figure environments. -/
def tex15 : List Char := (List.replicate 15 figSrc).flatten

/-- Fixture: an index resolving `f` to a PNG file. -/
def idxF : List (List Char × List Char) :=
  [(String.toList "f", String.toList "f.png")]

/-- Number of files of the tree not yet visited: the measure that the
visited set strictly shrinks at every recursive expansion. -/
def unvisitedCount (fs : List (List Char × List Char))
    (visited : List (List Char)) : Nat :=
  ((fs.map Prod.fst).filter (fun k => k ∉ visited)).length

theorem stripLit_some_append (pat : List Char) :
    ∀ l r, stripLit pat l = some r → l = pat ++ r := by
  induction pat with
  | nil => intro l r h; simpa [stripLit] using h
  | cons c cs ih =>
    intro l r h
    cases l with
    | nil => simp [stripLit] at h
    | cons x xs =>
      by_cases hx : x = c
      · simp [stripLit, hx] at h
        simpa [hx] using congrArg (x :: ·) (ih xs r h)
      · simp [stripLit, hx] at h

theorem stripLit_length_le (pat : List Char) (l r : List Char)
    (h : stripLit pat l = some r) : r.length ≤ l.length := by
  have := stripLit_some_append pat l r h
  subst this; simp

theorem takeRefAux_some_append :
    ∀ l a r, takeRefAux l = some (a, r) → l = a ++ '\x7d' :: r := by
  intro l
  induction l with
  | nil => intro a r h; simp [takeRefAux] at h
  | cons c rest ih =>
    intro a r h
    by_cases hc : c = '\x7d'
    · simp [takeRefAux, hc] at h
      simp [hc, ← h.1, ← h.2]
    · simp [takeRefAux, hc] at h
      match hm : takeRefAux rest with
      | some (a', r') =>
        rw [hm] at h
        simp at h
        have := ih a' r' hm
        simp [← h.1, ← h.2, this]
      | none => rw [hm] at h; simp at h

theorem takeRefAux_length (l a r : List Char)
    (h : takeRefAux l = some (a, r)) : r.length < l.length := by
  have := takeRefAux_some_append l a r h
  subst this; simp; omega

theorem takeBraceRef_length (l a r : List Char)
    (h : takeBraceRef l = some (a, r)) : r.length < l.length := by
  match l with
  | [] => simp [takeBraceRef] at h
  | c :: rest =>
    by_cases hc : c = '\x7b'
    · simp only [takeBraceRef, hc, if_pos] at h
      match hm : takeRefAux rest with
      | some (a', r') =>
        rw [hm] at h
        by_cases ha : a' = []
        · simp [ha] at h
        · simp [ha] at h
          have := takeRefAux_length rest a' r' hm
          simp [← h.2]
          omega
      | none => rw [hm] at h; simp at h
    · simp [takeBraceRef, hc] at h

theorem matchRefTail_length (l a r : List Char)
    (h : matchRefTail l = some (a, r)) : r.length < l.length := by
  unfold matchRefTail at h
  match hm : takeRefAux l with
  | some (a', r') =>
    rw [hm] at h
    by_cases ha : a' = []
    · simp [ha] at h
    · simp [ha] at h
      have := takeRefAux_length l a' r' hm
      exact h.2 ▸ this
  | none => rw [hm] at h; simp at h

theorem matchInputDirective_length (l a r : List Char)
    (h : matchInputDirective l = some (a, r)) : r.length < l.length := by
  unfold matchInputDirective at h
  match h1 : stripLit (String.toList "\\input\x7b") l with
  | some rest =>
    rw [h1] at h
    have hle := stripLit_length_le _ l rest h1
    have := matchRefTail_length rest a r h
    omega
  | none =>
    rw [h1] at h
    match h2 : stripLit (String.toList "\\include\x7b") l with
    | some rest =>
      rw [h2] at h
      have hle := stripLit_length_le _ l rest h2
      have := matchRefTail_length rest a r h
      omega
    | none => rw [h2] at h; simp at h

theorem scanTexF_fuel :
    ∀ fuel₁ fuel₂ l, l.length ≤ fuel₁ → l.length ≤ fuel₂ →
      scanTexF fuel₁ l = scanTexF fuel₂ l := by
  intro fuel₁
  induction fuel₁ with
  | zero =>
    intro fuel₂ l h1 _
    have : l = [] := List.eq_nil_of_length_eq_zero (Nat.le_zero.mp h1)
    subst this
    cases fuel₂ <;> simp [scanTexF]
  | succ f ih =>
    intro fuel₂ l h1 h2
    cases l with
    | nil => cases fuel₂ <;> simp [scanTexF]
    | cons c rest =>
      cases fuel₂ with
      | zero => simp at h2
      | succ f₂ =>
        simp only [scanTexF]
        match hm : matchInputDirective (c :: rest) with
        | some (ref, r) =>
          have hr := matchInputDirective_length _ _ _ hm
          simp only [List.length_cons] at h1 h2 hr
          show TexTok.inp ref :: scanTexF f r = TexTok.inp ref :: scanTexF f₂ r
          rw [ih f₂ r (by omega) (by omega)]
        | none =>
          simp only [List.length_cons] at h1 h2
          show TexTok.text c :: scanTexF f rest = TexTok.text c :: scanTexF f₂ rest
          rw [ih f₂ rest (by omega) (by omega)]

theorem matchStarBrace_some_append (l r : List Char) (h : matchStarBrace l = some r) :
    l = '*' :: '\x7d' :: r ∨ l = '\x7d' :: r := by
  match l with
  | [] => simp [matchStarBrace] at h
  | c :: rest2 =>
    by_cases hc : c = '*'
    · subst hc
      match rest2 with
      | [] => simp [matchStarBrace] at h
      | c2 :: r' =>
        by_cases h2 : c2 = '\x7d'
        · subst h2
          simp [matchStarBrace] at h
          simp [h]
        · simp [matchStarBrace, h2] at h
    · by_cases hb : c = '\x7d'
      · subst hb
        simp [matchStarBrace] at h
        simp [h]
      · simp [matchStarBrace, hc, hb] at h

theorem matchFigBegin_some_append (l r : List Char) (h : matchFigBegin l = some r) :
    ∃ m, l = m ++ r ∧
      (m = String.toList "\\begin\x7bfigure*\x7d" ∨ m = String.toList "\\begin\x7bfigure\x7d") := by
  unfold matchFigBegin at h
  match h1 : stripLit (String.toList "\\begin\x7bfigure") l with
  | none => rw [h1] at h; simp at h
  | some rest =>
    rw [h1] at h
    have heq := stripLit_some_append _ l rest h1
    rcases matchStarBrace_some_append rest r h with h' | h'
    · exact ⟨String.toList "\\begin\x7bfigure*\x7d", by rw [heq, h']; rfl, Or.inl rfl⟩
    · exact ⟨String.toList "\\begin\x7bfigure\x7d", by rw [heq, h']; rfl, Or.inr rfl⟩

theorem matchFigEnd_some_append (l r : List Char) (h : matchFigEnd l = some r) :
    ∃ m, l = m ++ r ∧
      (m = String.toList "\\end\x7bfigure*\x7d" ∨ m = String.toList "\\end\x7bfigure\x7d") := by
  unfold matchFigEnd at h
  match h1 : stripLit (String.toList "\\end\x7bfigure") l with
  | none => rw [h1] at h; simp at h
  | some rest =>
    rw [h1] at h
    have heq := stripLit_some_append _ l rest h1
    rcases matchStarBrace_some_append rest r h with h' | h'
    · exact ⟨String.toList "\\end\x7bfigure*\x7d", by rw [heq, h']; rfl, Or.inl rfl⟩
    · exact ⟨String.toList "\\end\x7bfigure\x7d", by rw [heq, h']; rfl, Or.inr rfl⟩

theorem matchFigBegin_length (l r : List Char) (h : matchFigBegin l = some r) :
    r.length < l.length := by
  obtain ⟨m, hm, hcase⟩ := matchFigBegin_some_append l r h
  subst hm
  rcases hcase with h' | h' <;> subst h' <;> simp <;> omega

theorem matchFigEnd_length (l r : List Char) (h : matchFigEnd l = some r) :
    r.length < l.length := by
  obtain ⟨m, hm, hcase⟩ := matchFigEnd_some_append l r h
  subst hm
  rcases hcase with h' | h' <;> subst h' <;> simp <;> omega

theorem splitAtEnd_some_append :
    ∀ l b a, splitAtEnd l = some (b, a) →
      ∃ e, l = b ++ e ++ a ∧
        (e = String.toList "\\end\x7bfigure*\x7d" ∨ e = String.toList "\\end\x7bfigure\x7d") := by
  intro l
  induction l with
  | nil => intro b a h; simp [splitAtEnd] at h
  | cons c rest ih =>
    intro b a h
    unfold splitAtEnd at h
    match h1 : matchFigEnd (c :: rest) with
    | some after =>
      rw [h1] at h
      simp at h
      obtain ⟨m, hm, hcase⟩ := matchFigEnd_some_append _ _ h1
      exact ⟨m, by simp [← h.1, ← h.2, hm], hcase⟩
    | none =>
      rw [h1] at h
      match h2 : splitAtEnd rest with
      | some (b', a') =>
        rw [h2] at h
        simp at h
        obtain ⟨e, he, hcase⟩ := ih b' a' h2
        exact ⟨e, by simp [← h.1, ← h.2, he], hcase⟩
      | none => rw [h2] at h; simp at h

theorem splitAtEnd_length (l b a : List Char) (h : splitAtEnd l = some (b, a)) :
    a.length < l.length := by
  obtain ⟨e, he, hcase⟩ := splitAtEnd_some_append l b a h
  subst he
  rcases hcase with h' | h' <;> subst h' <;> simp <;> omega

theorem splitAtEnd_none_cons (c : Char) (rest : List Char)
    (h : splitAtEnd (c :: rest) = none) :
    matchFigEnd (c :: rest) = none ∧ splitAtEnd rest = none := by
  unfold splitAtEnd at h
  match h1 : matchFigEnd (c :: rest) with
  | some after => rw [h1] at h; simp at h
  | none =>
    rw [h1] at h
    match h2 : splitAtEnd rest with
    | some (b, a) => rw [h2] at h; simp at h
    | none => exact ⟨rfl, rfl⟩

theorem splitAtEnd_none_append :
    ∀ m l, splitAtEnd (m ++ l) = none → splitAtEnd l = none := by
  intro m
  induction m with
  | nil => intro l h; simpa using h
  | cons c cs ih =>
    intro l h
    exact ih l (splitAtEnd_none_cons c (cs ++ l) (by simpa using h)).2

theorem findFigSpansF_fuel :
    ∀ fuel₁ fuel₂ l, l.length ≤ fuel₁ → l.length ≤ fuel₂ →
      findFigSpansF fuel₁ l = findFigSpansF fuel₂ l := by
  intro fuel₁
  induction fuel₁ with
  | zero =>
    intro fuel₂ l h1 _
    have : l = [] := List.eq_nil_of_length_eq_zero (Nat.le_zero.mp h1)
    subst this
    cases fuel₂ <;> simp [findFigSpansF]
  | succ f ih =>
    intro fuel₂ l h1 h2
    cases l with
    | nil => cases fuel₂ <;> simp [findFigSpansF]
    | cons c rest =>
      cases fuel₂ with
      | zero => simp at h2
      | succ f₂ =>
        simp only [findFigSpansF]
        match hm : matchFigBegin (c :: rest) with
        | some after =>
          match hs : splitAtEnd after with
          | some (body, rest2) =>
            have hb := matchFigBegin_length _ _ hm
            have he := splitAtEnd_length _ _ _ hs
            simp only [List.length_cons] at h1 h2 hb he
            simp only [hs]
            rw [ih f₂ rest2 (by omega) (by omega)]
          | none => simp only [hs]
        | none =>
          simp only [List.length_cons] at h1 h2
          exact ih f₂ rest (by omega) (by omega)

theorem scanOptBr_length (dotall : Bool) :
    ∀ l a r, scanOptBr dotall l = some (a, r) → r.length < l.length := by
  intro l
  induction l with
  | nil => intro a r h; simp [scanOptBr] at h
  | cons c rest ih =>
    intro a r h
    by_cases hc : c = ']'
    · simp only [scanOptBr, hc, if_pos] at h
      match hm : takeBraceRef rest with
      | some (a', r') =>
        rw [hm] at h
        simp at h
        have := takeBraceRef_length rest a' r' hm
        have h2 := h.2
        subst h2
        simp
        omega
      | none =>
        rw [hm] at h
        have := ih a r h
        simp
        omega
    · by_cases hn : !dotall && c = '\n'
      · simp [scanOptBr, hc, hn] at h
      · simp only [scanOptBr, hc, if_neg, hn] at h
        have := ih a r (by by_cases hd : dotall <;> simp [hd] at h ⊢ <;> exact h)
        simp
        omega

theorem matchIncludegraphics_length (l a r : List Char)
    (h : matchIncludegraphics l = some (a, r)) : r.length < l.length := by
  unfold matchIncludegraphics at h
  match h1 : stripLit (String.toList "\\includegraphics") l with
  | none => rw [h1] at h; simp at h
  | some rest =>
    rw [h1] at h
    have hle := stripLit_length_le _ l rest h1
    match rest with
    | [] => simp at h
    | c :: rest2 =>
      by_cases hc : c = '['
      · simp only [hc, if_pos] at h
        have := scanOptBr_length false rest2 a r h
        simp at hle
        omega
      · simp only [hc, if_neg, not_false_iff] at h
        have := takeBraceRef_length _ _ _ h
        omega

theorem findImgRefsF_fuel :
    ∀ fuel₁ fuel₂ l, l.length ≤ fuel₁ → l.length ≤ fuel₂ →
      findImgRefsF fuel₁ l = findImgRefsF fuel₂ l := by
  intro fuel₁
  induction fuel₁ with
  | zero =>
    intro fuel₂ l h1 _
    have : l = [] := List.eq_nil_of_length_eq_zero (Nat.le_zero.mp h1)
    subst this
    cases fuel₂ <;> simp [findImgRefsF]
  | succ f ih =>
    intro fuel₂ l h1 h2
    cases l with
    | nil => cases fuel₂ <;> simp [findImgRefsF]
    | cons c rest =>
      cases fuel₂ with
      | zero => simp at h2
      | succ f₂ =>
        simp only [findImgRefsF]
        match hm : matchIncludegraphics (c :: rest) with
        | some (ref, r) =>
          have hr := matchIncludegraphics_length _ _ _ hm
          simp only [List.length_cons] at h1 h2 hr
          simp only []
          rw [ih f₂ r (by omega) (by omega)]
        | none =>
          simp only [List.length_cons] at h1 h2
          exact ih f₂ rest (by omega) (by omega)

theorem matchFmtCmd_length (l a r : List Char)
    (h : matchFmtCmd l = some (a, r)) : r.length < l.length := by
  unfold matchFmtCmd at h
  by_cases hl : l.takeWhile isAsciiLetter = []
  · simp [hl] at h
  · simp only [hl, if_neg, not_false_iff] at h
    match hd : l.drop (l.takeWhile isAsciiLetter).length with
    | [] => rw [hd] at h; simp at h
    | c :: rest =>
      rw [hd] at h
      by_cases hc : c = '\x7b'
      · simp only [hc, if_pos] at h
        have h1 := takeRefAux_length rest a r h
        have h2 : l.length - (l.takeWhile isAsciiLetter).length = rest.length + 1 := by
          rw [← List.length_drop, hd]; rfl
        omega
      · simp [hc] at h

theorem stripFmtCmdsF_fuel :
    ∀ fuel₁ fuel₂ l, l.length ≤ fuel₁ → l.length ≤ fuel₂ →
      stripFmtCmdsF fuel₁ l = stripFmtCmdsF fuel₂ l := by
  intro fuel₁
  induction fuel₁ with
  | zero =>
    intro fuel₂ l h1 _
    have : l = [] := List.eq_nil_of_length_eq_zero (Nat.le_zero.mp h1)
    subst this
    cases fuel₂ <;> simp [stripFmtCmdsF]
  | succ f ih =>
    intro fuel₂ l h1 h2
    cases l with
    | nil => cases fuel₂ <;> simp [stripFmtCmdsF]
    | cons c rest =>
      cases fuel₂ with
      | zero => simp at h2
      | succ f₂ =>
        simp only [stripFmtCmdsF]
        simp only [List.length_cons] at h1 h2
        by_cases hc : c = '\\'
        · simp only [hc, if_pos]
          match hm : matchFmtCmd rest with
          | some (a, r) =>
            have hr := matchFmtCmd_length _ _ _ hm
            show a ++ stripFmtCmdsF f r = a ++ stripFmtCmdsF f₂ r
            rw [ih f₂ r (by omega) (by omega)]
          | none =>
            show '\\' :: stripFmtCmdsF f rest = '\\' :: stripFmtCmdsF f₂ rest
            rw [ih f₂ rest (by omega) (by omega)]
        · simp only [hc, if_neg, not_false_iff]
          rw [ih f₂ rest (by omega) (by omega)]

/-- Claim C2: figure numbers are assigned strictly in left-to-right
order of figure-environment openings, starting at 1 with no gaps — the
n-th recognized figure environment receives number n, regardless of how
many image references or captions it contains. -/
theorem C2_figure_numbering (tex : List Char) :
    (parse_figures_from_tex tex).map (fun f => f.number) =
      List.range' 1 (parse_figures_from_tex tex).length := by
  have key : ∀ (spans : List (List Char)) (n : Nat),
      List.map (fun p : Nat × List Char => p.1 + 1) (List.enumFrom n spans) =
        List.range' (n + 1) spans.length := by
    intro spans
    induction spans with
    | nil => intro n; simp
    | cons s rest ih =>
      intro n
      simp [List.enumFrom, List.range'_succ, ih (n + 1)]
  unfold parse_figures_from_tex
  rw [List.map_map, List.length_map, List.enum_length]
  show List.map (fun p : Nat × List Char => p.1 + 1)
    (List.enumFrom 0 (findFigSpans tex)) = List.range' 1 (findFigSpans tex).length
  simpa using key (findFigSpans tex) 0

/-- Claim C5: the cleaned caption is truncated to exactly its first 117
characters followed by the 3-character ellipsis exactly when it exceeds
120 characters (and then the result has exactly 120 characters); a
cleaned caption of at most 120 characters — in particular exactly
120 — is returned unchanged. -/
theorem C5_caption_truncation (raw : List Char) :
    (120 < (clean_caption_core raw).length →
      clean_caption raw = (clean_caption_core raw).take 117 ++ String.toList "..." ∧
        (clean_caption raw).length = 120) ∧
    ((clean_caption_core raw).length ≤ 120 → clean_caption raw = clean_caption_core raw) := by
  constructor
  · intro h
    constructor
    · rw [clean_caption, truncateCaption, if_pos h]
    · rw [clean_caption, truncateCaption, if_pos h]
      simp [List.length_take]
      omega
  · intro h
    rw [clean_caption, truncateCaption, if_neg (by omega)]

set_option maxRecDepth 100000 in
/-- Witness for C5: a cleaned caption of 121 characters is cut to its
first 117 characters plus the ellipsis, for a total of 120; one of
exactly 120 characters is returned unchanged. -/
theorem C5_caption_truncation_witness :
    (clean_caption (List.replicate 121 'a') =
        (clean_caption_core (List.replicate 121 'a')).take 117 ++ String.toList "..." ∧
      (clean_caption (List.replicate 121 'a')).length = 120) ∧
    clean_caption (List.replicate 120 'a') = clean_caption_core (List.replicate 120 'a') :=
  ⟨(C5_caption_truncation (List.replicate 121 'a')).1 (by decide),
   (C5_caption_truncation (List.replicate 120 'a')).2 (by decide)⟩

/-- Claim C6: image resolution prefers an exact stem-key match over
every fallback stage — whenever the index maps the raw reference
itself, resolution returns that entry. -/
theorem C6_exact_match (img_ref : List Char)
    (images : List (List Char × List Char)) (p : List Char)
    (h : List.lookup img_ref images = some p) :
    resolve_image img_ref images = some p := by
  unfold resolve_image
  rw [h]

/-- Witness for C6, the claim's own example: with index keys
`figs/plot ↦ A` and `plot ↦ B`, the reference `figs/plot` resolves to
`A`. -/
theorem C6_exact_match_witness :
    resolve_image (String.toList "figs/plot")
        [(String.toList "figs/plot", String.toList "A"),
         (String.toList "plot", String.toList "B")] =
      some (String.toList "A") :=
  C6_exact_match (String.toList "figs/plot")
    [(String.toList "figs/plot", String.toList "A"),
     (String.toList "plot", String.toList "B")]
    (String.toList "A") (by decide)

/-- Counterexample for claim C7: with index `{diagrams/arch ↦ X}` and
reference `./diagrams/arch.png`, the strip-leading-qualifier stage
(stage 2, lookup of the stripped reference) FAILS — its lookup misses,
because the stripped reference still carries `.png` while the index key
is extension-free — even though overall resolution does return X.  So
the claim's attribution of the success to the strip-leading-qualifier
stage is false. -/
theorem C7_counterexample :
    List.lookup (lstripDotSlash (String.toList "./diagrams/arch.png"))
        [(String.toList "diagrams/arch", String.toList "X")] = none ∧
      resolve_image (String.toList "./diagrams/arch.png")
        [(String.toList "diagrams/arch", String.toList "X")] =
        some (String.toList "X") := by
  constructor
  · decide
  · decide

/-- Claim C7 as amended: with index `{diagrams/arch ↦ X}` and
reference `./diagrams/arch.png`, resolution returns X via the
extension-preference stage (stage 3), which — after the exact and
stripped-reference lookups both miss — tries for each extension of the
fixed preference list the qualifier-stripped reference with that
extension appended (unless already carried), after stripping any
extension from the last dot, against the index keys. -/
theorem C7_amended :
    resolve_image (String.toList "./diagrams/arch.png")
        [(String.toList "diagrams/arch", String.toList "X")] =
        some (String.toList "X") ∧
      List.lookup (String.toList "./diagrams/arch.png")
        [(String.toList "diagrams/arch", String.toList "X")] = none ∧
      List.lookup (lstripDotSlash (String.toList "./diagrams/arch.png"))
        [(String.toList "diagrams/arch", String.toList "X")] = none ∧
      tryExtensions (lstripDotSlash (String.toList "./diagrams/arch.png"))
        [(String.toList "diagrams/arch", String.toList "X")]
        [String.toList ".png", String.toList ".pdf", String.toList ".jpg",
         String.toList ".jpeg", String.toList ".eps", String.toList ".svg"] =
        some (String.toList "X") := by
  refine ⟨by decide, by decide, by decide, by decide⟩

/-- Claim C9: the qualifier-strip stage removes every leading `'.'` and
`'/'` character (the maximal leading run over that two-character set),
not only a single `"./"`; hence any two references differing only in
such a leading run strip to the same key and — when neither matches the
index exactly — resolve identically, and a leading dotted first segment
loses its dots (e.g. `"./fig"`, `"..//fig"`, `"fig"` all strip to
`"fig"`, and `".hidden/fig"` strips to `"hidden/fig"`). -/
theorem C9_qualifier_strip :
    (∀ run c cs, (∀ x ∈ run, x = '.' ∨ x = '/') → c ≠ '.' → c ≠ '/' →
        lstripDotSlash (run ++ c :: cs) = c :: cs) ∧
    (∀ r₁ r₂ images, lstripDotSlash r₁ = lstripDotSlash r₂ →
        List.lookup r₁ images = none → List.lookup r₂ images = none →
        resolve_image r₁ images = resolve_image r₂ images) ∧
    lstripDotSlash (String.toList "./fig") = String.toList "fig" ∧
    lstripDotSlash (String.toList "..//fig") = String.toList "fig" ∧
    lstripDotSlash (String.toList "fig") = String.toList "fig" ∧
    lstripDotSlash (String.toList ".hidden/fig") = String.toList "hidden/fig" := by
  refine ⟨?_, ?_, by decide, by decide, by decide, by decide⟩
  · intro run
    induction run with
    | nil =>
      intro c cs _ hc1 hc2
      simp [lstripDotSlash, List.dropWhile_cons, hc1, hc2]
    | cons x xs ih =>
      intro c cs hall hc1 hc2
      have hx := hall x (List.mem_cons_self x xs)
      have : lstripDotSlash (x :: (xs ++ c :: cs)) = lstripDotSlash (xs ++ c :: cs) := by
        rcases hx with h' | h' <;> simp [lstripDotSlash, List.dropWhile_cons, h']
      simpa [this] using ih c cs (fun y hy => hall y (List.mem_cons_of_mem x hy)) hc1 hc2
  · intro r₁ r₂ images hstrip h1 h2
    unfold resolve_image
    rw [h1, h2, hstrip]

/-- Witness for C9 at concrete inputs: stripping the run `"./"` before
`"fig"` yields `"fig"`, and the references `"./x"` and `"x"` (which
strip to the same key and are both absent from the index) resolve
identically against the index `{y ↦ P}`. -/
theorem C9_qualifier_strip_witness :
    lstripDotSlash (('.' :: '/' :: []) ++ 'f' :: String.toList "ig") =
        'f' :: String.toList "ig" ∧
      resolve_image (String.toList "./x") [(String.toList "y", String.toList "P")] =
        resolve_image (String.toList "x") [(String.toList "y", String.toList "P")] :=
  ⟨C9_qualifier_strip.1 ('.' :: '/' :: []) 'f' (String.toList "ig")
      (by decide) (by decide) (by decide),
   C9_qualifier_strip.2.1 (String.toList "./x") (String.toList "x")
      [(String.toList "y", String.toList "P")] (by decide) (by decide) (by decide)⟩

theorem extract_loop_stop (images : List (List Char × List Char))
    (cOk : List Char → Bool) :
    ∀ figs saved, MAX_FIGURES ≤ saved.length →
      extract_loop images cOk figs saved = saved := by
  intro figs
  induction figs with
  | nil => intro saved _; rfl
  | cons fig rest _ =>
    intro saved h
    simp only [extract_loop, if_pos h]

theorem extract_loop_length_le (images : List (List Char × List Char))
    (cOk : List Char → Bool) :
    ∀ figs saved,
      (extract_loop images cOk figs saved).length ≤ saved.length + figs.length := by
  intro figs
  induction figs with
  | nil => intro saved; simp [extract_loop]
  | cons fig rest ih =>
    intro saved
    simp only [extract_loop]
    by_cases h : MAX_FIGURES ≤ saved.length
    · simp only [if_pos h, List.length_cons]
      omega
    · simp only [if_neg h, List.length_cons]
      cases hsv : save_for_refs images cOk fig.number fig.image_paths with
      | none =>
        show (extract_loop images cOk rest saved).length ≤ saved.length + (rest.length + 1)
        have := ih saved
        omega
      | some fname =>
        show (extract_loop images cOk rest (saved ++
          [{ number := fig.number, caption := fig.caption, filename := fname }])).length ≤
            saved.length + (rest.length + 1)
        have := ih (saved ++
          [{ number := fig.number, caption := fig.caption, filename := fname }])
        simp at this
        omega

theorem extract_loop_le_max (images : List (List Char × List Char))
    (cOk : List Char → Bool) :
    ∀ figs saved, saved.length ≤ MAX_FIGURES →
      (extract_loop images cOk figs saved).length ≤ MAX_FIGURES := by
  intro figs
  induction figs with
  | nil => intro saved h; simpa [extract_loop] using h
  | cons fig rest ih =>
    intro saved h
    simp only [extract_loop]
    by_cases hm : MAX_FIGURES ≤ saved.length
    · simpa [if_pos hm] using h
    · simp only [if_neg hm]
      cases hsv : save_for_refs images cOk fig.number fig.image_paths with
      | none =>
        show (extract_loop images cOk rest saved).length ≤ MAX_FIGURES
        exact ih saved h
      | some fname =>
        show (extract_loop images cOk rest (saved ++
          [{ number := fig.number, caption := fig.caption, filename := fname }])).length ≤
            MAX_FIGURES
        exact ih (saved ++
          [{ number := fig.number, caption := fig.caption, filename := fname }])
          (by simp; omega)

/-- Claim C4: a resolved file with the `.eps` extension is skipped and
the search continues with the next reference of the same record; a
figure record whose only reference resolves to an EPS file contributes
no SavedFig; and every run saves at most as many figures as it parsed
figure records. -/
theorem C4_eps_skip :
    (∀ (images : List (List Char × List Char)) (cOk : List Char → Bool)
        (n : Nat) (ref : List Char) (rest : List (List Char)) (p : List Char),
      resolve_image ref images = some p →
      suffixLower p = String.toList ".eps" →
      save_for_refs images cOk n (ref :: rest) = save_for_refs images cOk n rest) ∧
    (∀ (images : List (List Char × List Char)) (cOk : List Char → Bool)
        (n : Nat) (cap : List Char) (figs : List FigureRec)
        (saved : List SavedFig) (ref p : List Char),
      resolve_image ref images = some p →
      suffixLower p = String.toList ".eps" →
      extract_loop images cOk
          ({ number := n, image_paths := [ref], caption := cap } :: figs) saved =
        extract_loop images cOk figs saved) ∧
    (∀ (images : List (List Char × List Char)) (cOk : List Char → Bool)
        (tex : List Char),
      (extract_figures images cOk tex).length ≤ (parse_figures_from_tex tex).length) := by
  have skip : ∀ (images : List (List Char × List Char)) (cOk : List Char → Bool)
      (n : Nat) (ref : List Char) (rest : List (List Char)) (p : List Char),
      resolve_image ref images = some p →
      suffixLower p = String.toList ".eps" →
      save_for_refs images cOk n (ref :: rest) = save_for_refs images cOk n rest := by
    intro images cOk n ref rest p hres hsuf
    simp only [save_for_refs, hres, hsuf]
    simp
  refine ⟨skip, ?_, ?_⟩
  · intro images cOk n cap figs saved ref p hres hsuf
    by_cases hm : MAX_FIGURES ≤ saved.length
    · rw [extract_loop_stop images cOk _ saved hm,
        extract_loop_stop images cOk figs saved hm]
    · simp only [extract_loop, if_neg hm]
      rw [skip images cOk n ref [] p hres hsuf]
      rfl
  · intro images cOk tex
    have := extract_loop_length_le images cOk (parse_figures_from_tex tex) []
    simpa [extract_figures] using this

/-- Witness for C4 at a concrete record: with index `{e ↦ e.eps}`, the
reference `e` resolves to an EPS file, so it is skipped — the search
falls through to the remaining references — and a record with `e` as
its only reference contributes nothing to the loop. -/
theorem C4_eps_skip_witness :
    save_for_refs [(String.toList "e", String.toList "e.eps")] (fun _ => true) 1
        [String.toList "e"] =
      save_for_refs [(String.toList "e", String.toList "e.eps")] (fun _ => true) 1 [] ∧
    extract_loop [(String.toList "e", String.toList "e.eps")] (fun _ => true)
        [{ number := 1, image_paths := [String.toList "e"], caption := [] }] [] =
      extract_loop [(String.toList "e", String.toList "e.eps")] (fun _ => true) [] [] :=
  ⟨C4_eps_skip.1 [(String.toList "e", String.toList "e.eps")] (fun _ => true) 1
      (String.toList "e") [] (String.toList "e.eps") (by decide) (by decide),
   C4_eps_skip.2.1 [(String.toList "e", String.toList "e.eps")] (fun _ => true) 1
      [] [] [] (String.toList "e") (String.toList "e.eps") (by decide) (by decide)⟩

set_option maxRecDepth 100000 in
/-- Claim C3: every run produces at most `MAX_FIGURES` SavedFigs; and
on a text of 15 figure environments whose every reference resolves to a
savable image, exactly 10 SavedFigs are produced while the cap does not
bound the 15 FigureRecs the parser scanned. -/
theorem C3_max_figures_cap :
    (∀ (images : List (List Char × List Char)) (cOk : List Char → Bool)
        (tex : List Char),
      (extract_figures images cOk tex).length ≤ MAX_FIGURES) ∧
    (parse_figures_from_tex tex15).length = 15 ∧
    (extract_figures idxF (fun _ => true) tex15).length = 10 := by
  refine ⟨?_, by decide, by decide⟩
  intro images cOk tex
  simpa [extract_figures] using
    extract_loop_le_max images cOk (parse_figures_from_tex tex) []
      (by simp [MAX_FIGURES])

/-- Claim C8: a figure whose resolved image is a PDF and whose
rasterization fails is saved under the document extension as
`figure<N>.pdf`, with the record's assigned number embedded in the
filename — not under the bitmap extension. -/
theorem C8_pdf_fallback :
    (∀ (images : List (List Char × List Char)) (cOk : List Char → Bool)
        (n : Nat) (ref : List Char) (rest : List (List Char)) (p : List Char),
      resolve_image ref images = some p →
      suffixLower p = String.toList ".pdf" →
      cOk p = false →
      save_for_refs images cOk n (ref :: rest) =
        some (figFileName n (String.toList ".pdf"))) ∧
    (∀ (images : List (List Char × List Char)) (cOk : List Char → Bool)
        (n : Nat) (cap : List Char) (rest' : List (List Char))
        (figs : List FigureRec) (saved : List SavedFig) (ref p : List Char),
      resolve_image ref images = some p →
      suffixLower p = String.toList ".pdf" →
      cOk p = false →
      saved.length < MAX_FIGURES →
      extract_loop images cOk
          ({ number := n, image_paths := ref :: rest', caption := cap } :: figs) saved =
        extract_loop images cOk figs
          (saved ++ [{ number := n, caption := cap,
                       filename := figFileName n (String.toList ".pdf") }])) := by
  have part1 : ∀ (images : List (List Char × List Char)) (cOk : List Char → Bool)
      (n : Nat) (ref : List Char) (rest : List (List Char)) (p : List Char),
      resolve_image ref images = some p →
      suffixLower p = String.toList ".pdf" →
      cOk p = false →
      save_for_refs images cOk n (ref :: rest) =
        some (figFileName n (String.toList ".pdf")) := by
    intro images cOk n ref rest p hres hsuf hcok
    simp only [save_for_refs, hres, hsuf]
    simp [hcok]
  refine ⟨part1, ?_⟩
  intro images cOk n cap rest' figs saved ref p hres hsuf hcok hlt
  simp only [extract_loop, if_neg (Nat.not_le.mpr hlt)]
  rw [part1 images cOk n ref rest' p hres hsuf hcok]

/-- Witness for C8 at a concrete figure: index `{d ↦ paper.pdf}`, a
rasterizer that always fails, figure number 3 — the saved filename is
`figure3.pdf` and the loop appends exactly that record. -/
theorem C8_pdf_fallback_witness :
    save_for_refs [(String.toList "d", String.toList "paper.pdf")] (fun _ => false) 3
        [String.toList "d"] =
      some (figFileName 3 (String.toList ".pdf")) ∧
    extract_loop [(String.toList "d", String.toList "paper.pdf")] (fun _ => false)
        [{ number := 3, image_paths := [String.toList "d"], caption := String.toList "c" }]
        [] =
      extract_loop [(String.toList "d", String.toList "paper.pdf")] (fun _ => false) []
        [{ number := 3, caption := String.toList "c",
           filename := figFileName 3 (String.toList ".pdf") }] :=
  ⟨C8_pdf_fallback.1 [(String.toList "d", String.toList "paper.pdf")] (fun _ => false) 3
      (String.toList "d") [] (String.toList "paper.pdf") (by decide) (by decide) rfl,
   C8_pdf_fallback.2 [(String.toList "d", String.toList "paper.pdf")] (fun _ => false) 3
      (String.toList "c") [] [] [] (String.toList "d") (String.toList "paper.pdf")
      (by decide) (by decide) rfl (by decide)⟩

theorem findFigSpansF_sound :
    ∀ (fuel : Nat) (l b : List Char), b ∈ findFigSpansF fuel l →
      ∃ u m e v, l = u ++ m ++ b ++ e ++ v ∧
        (m = String.toList "\\begin\x7bfigure*\x7d" ∨
          m = String.toList "\\begin\x7bfigure\x7d") ∧
        (e = String.toList "\\end\x7bfigure*\x7d" ∨
          e = String.toList "\\end\x7bfigure\x7d") := by
  intro fuel
  induction fuel with
  | zero => intro l b h; simp [findFigSpansF] at h
  | succ f ih =>
    intro l b h
    cases l with
    | nil => simp [findFigSpansF] at h
    | cons c rest =>
      simp only [findFigSpansF] at h
      split at h
      · next after hm =>
        split at h
        · next body rest2 hs =>
          simp only [List.mem_cons] at h
          obtain ⟨m, hmeq, hmcase⟩ := matchFigBegin_some_append _ _ hm
          obtain ⟨e, heeq, hecase⟩ := splitAtEnd_some_append after body rest2 hs
          rcases h with h | h
          · subst h
            exact ⟨[], m, e, rest2, by simp [hmeq, heeq], hmcase, hecase⟩
          · obtain ⟨u', m', e', v', hv, hm', he'⟩ := ih rest2 b h
            refine ⟨m ++ body ++ e ++ u', m', e', v', ?_, hm', he'⟩
            rw [hmeq, heeq, hv]
            simp
        · next hs => simp at h
      · next hm =>
        obtain ⟨u', m', e', v', hv, hm', he'⟩ := ih rest b h
        exact ⟨c :: u', m', e', v', by simp [hv], hm', he'⟩

theorem findFigSpansF_of_no_end :
    ∀ (fuel : Nat) (l : List Char), splitAtEnd l = none →
      findFigSpansF fuel l = [] := by
  intro fuel
  induction fuel with
  | zero => intro l _; rfl
  | succ f ih =>
    intro l hend
    cases l with
    | nil => rfl
    | cons c rest =>
      simp only [findFigSpansF]
      split
      · next after hm =>
        obtain ⟨m, hmeq, _⟩ := matchFigBegin_some_append _ _ hm
        have hafter : splitAtEnd after = none :=
          splitAtEnd_none_append m after (hmeq ▸ hend)
        split
        · next body rest2 hs => rw [hafter] at hs; cases hs
        · rfl
      · next hm =>
        exact ih rest (splitAtEnd_none_cons c rest hend).2

/-- Claim C10: every record the figure parser emits comes from a span
properly delimited by a begin marker and an end marker, so an opening
marker with no matching end marker after it yields no record — a text
whose end markers are exhausted parses to no records at all, and in the
concrete text `\begin\x7bfigure\x7dA\end\x7bfigure\x7dxx\begin\x7bfigure\x7dB`
the unterminated second opening neither yields a record nor advances
the numbering of the single emitted figure. -/
theorem C10_unterminated_begin :
    (∀ tex b, b ∈ findFigSpans tex →
      ∃ u m e v, tex = u ++ m ++ b ++ e ++ v ∧
        (m = String.toList "\\begin\x7bfigure*\x7d" ∨
          m = String.toList "\\begin\x7bfigure\x7d") ∧
        (e = String.toList "\\end\x7bfigure*\x7d" ∨
          e = String.toList "\\end\x7bfigure\x7d")) ∧
    (∀ tex, splitAtEnd tex = none → parse_figures_from_tex tex = []) ∧
    parse_figures_from_tex
        (String.toList "\\begin\x7bfigure\x7dA\\end\x7bfigure\x7dxx\\begin\x7bfigure\x7dB") =
      [{ number := 1, image_paths := [], caption := [] }] := by
  refine ⟨?_, ?_, by decide⟩
  · intro tex b h
    exact findFigSpansF_sound tex.length tex b h
  · intro tex hend
    simp [parse_figures_from_tex, findFigSpans, findFigSpansF_of_no_end tex.length tex hend]

/-- Witness for C10: the single span of
`\begin\x7bfigure\x7dA\end\x7bfigure\x7d` is delimited by concrete
begin/end markers, and the end-markerless text
`\begin\x7bfigure\x7dzzz` parses to no records. -/
theorem C10_unterminated_begin_witness :
    (∃ u m e v,
      String.toList "\\begin\x7bfigure\x7dA\\end\x7bfigure\x7d" =
          u ++ m ++ String.toList "A" ++ e ++ v ∧
        (m = String.toList "\\begin\x7bfigure*\x7d" ∨
          m = String.toList "\\begin\x7bfigure\x7d") ∧
        (e = String.toList "\\end\x7bfigure*\x7d" ∨
          e = String.toList "\\end\x7bfigure\x7d")) ∧
    parse_figures_from_tex (String.toList "\\begin\x7bfigure\x7dzzz") = [] :=
  ⟨C10_unterminated_begin.1
      (String.toList "\\begin\x7bfigure\x7dA\\end\x7bfigure\x7d")
      (String.toList "A") (by decide),
   C10_unterminated_begin.2.1 (String.toList "\\begin\x7bfigure\x7dzzz") (by decide)⟩

theorem resolveToks_nil (resolver : List Char → List (List Char) → List Char × List (List Char))
    (fs : List (List Char × List Char)) (parent : List Char) (v : List (List Char)) :
    resolveToks resolver fs parent [] v = ([], v) := rfl

theorem resolveToks_text (resolver : List Char → List (List Char) → List Char × List (List Char))
    (fs : List (List Char × List Char)) (parent : List Char) (c : Char)
    (ts : List TexTok) (v : List (List Char)) :
    resolveToks resolver fs parent (TexTok.text c :: ts) v =
      (c :: (resolveToks resolver fs parent ts v).1,
       (resolveToks resolver fs parent ts v).2) := rfl

theorem resolveToks_inp_none (resolver : List Char → List (List Char) → List Char × List (List Char))
    (fs : List (List Char × List Char)) (parent ref : List Char)
    (ts : List TexTok) (v : List (List Char))
    (hf : find_tex_file fs ref parent = none) :
    resolveToks resolver fs parent (TexTok.inp ref :: ts) v =
      resolveToks resolver fs parent ts v := by
  simp only [resolveToks, hf]

theorem resolveToks_inp_some (resolver : List Char → List (List Char) → List Char × List (List Char))
    (fs : List (List Char × List Char)) (parent ref child : List Char)
    (ts : List TexTok) (v : List (List Char))
    (hf : find_tex_file fs ref parent = some child) :
    resolveToks resolver fs parent (TexTok.inp ref :: ts) v =
      ((resolver child v).1 ++
          (resolveToks resolver fs parent ts (resolver child v).2).1,
       (resolveToks resolver fs parent ts (resolver child v).2).2) := by
  simp only [resolveToks, hf]

theorem resolve_tex_zero (fs : List (List Char × List Char)) (p : List Char)
    (v : List (List Char)) : resolve_tex_content fs 0 p v = ([], v) := rfl

theorem resolve_tex_visited (fs : List (List Char × List Char)) (fuel : Nat)
    (p : List Char) (v : List (List Char)) (hv : p ∈ v) :
    resolve_tex_content fs (fuel + 1) p v = ([], v) := by
  simp only [resolve_tex_content, if_pos hv]

theorem resolve_tex_miss (fs : List (List Char × List Char)) (fuel : Nat)
    (p : List Char) (v : List (List Char)) (hv : p ∉ v)
    (hl : List.lookup p fs = none) :
    resolve_tex_content fs (fuel + 1) p v = ([], p :: v) := by
  simp only [resolve_tex_content, if_neg hv, hl]

theorem resolve_tex_found (fs : List (List Char × List Char)) (fuel : Nat)
    (p content : List Char) (v : List (List Char)) (hv : p ∉ v)
    (hl : List.lookup p fs = some content) :
    resolve_tex_content fs (fuel + 1) p v =
      resolveToks (fun q w => resolve_tex_content fs fuel q w) fs
        (dirOf p) (scanTex content) (p :: v) := by
  simp only [resolve_tex_content, if_neg hv, hl]

theorem lookup_mem_keys :
    ∀ (fs : List (List Char × List Char)) (p c : List Char),
      List.lookup p fs = some c → p ∈ fs.map Prod.fst := by
  intro fs
  induction fs with
  | nil => intro p c h; simp at h
  | cons kv rest ih =>
    intro p c h
    obtain ⟨k, b⟩ := kv
    by_cases heq : p = k
    · simp [heq]
    · simp only [List.lookup] at h
      rw [show (p == k) = false from beq_false_of_ne heq] at h
      simp only [List.map_cons, List.mem_cons]
      exact Or.inr (ih p c h)

theorem unvisitedCount_le_length (fs : List (List Char × List Char))
    (v : List (List Char)) : unvisitedCount fs v ≤ fs.length := by
  calc ((fs.map Prod.fst).filter (fun k => k ∉ v)).length
      ≤ (fs.map Prod.fst).length := List.length_filter_le _ _
    _ = fs.length := by simp

theorem unvisitedCount_anti (fs : List (List Char × List Char))
    (v v' : List (List Char)) (hsub : v ⊆ v') :
    unvisitedCount fs v' ≤ unvisitedCount fs v := by
  unfold unvisitedCount
  exact List.Sublist.length_le
    (List.monotone_filter_right _ (by
      intro a ha
      simp only [decide_eq_true_eq] at ha ⊢
      exact fun hmem => ha (hsub hmem)))

theorem filter_notmem_cons_lt (p : List Char) (v : List (List Char)) (hv : p ∉ v) :
    ∀ l : List (List Char), p ∈ l →
      (l.filter (fun k => k ∉ p :: v)).length <
        (l.filter (fun k => k ∉ v)).length := by
  intro l
  induction l with
  | nil => intro hp; simp at hp
  | cons x xs ih =>
    intro hp
    by_cases hx : x = p
    · subst hx
      simp only [List.filter_cons]
      rw [if_neg (by simp : ¬(decide (x ∉ x :: v) = true))]
      rw [if_pos (by simp [hv] : decide (x ∉ v) = true)]
      simp only [List.length_cons]
      have hle : ((xs.filter (fun k => k ∉ x :: v)).length ≤
          (xs.filter (fun k => k ∉ v)).length) :=
        List.Sublist.length_le
          (List.monotone_filter_right _ (by
            intro a ha
            simp only [decide_eq_true_eq] at ha ⊢
            exact fun hmem => ha (List.mem_cons_of_mem x hmem)))
      omega
    · have hp' : p ∈ xs := by
        rcases List.mem_cons.mp hp with h | h
        · exact absurd h.symm hx
        · exact h
      have := ih hp'
      simp only [List.filter_cons]
      by_cases hxv : x ∈ v
      · rw [if_neg (by simp [List.mem_cons_of_mem p hxv] :
            ¬(decide (x ∉ p :: v) = true))]
        rw [if_neg (by simp [hxv] : ¬(decide (x ∉ v) = true))]
        exact this
      · have hnotin : x ∉ p :: v := by
          intro hmem
          rcases List.mem_cons.mp hmem with h | h
          · exact hx h
          · exact hxv h
        rw [if_pos (by simp [hnotin] : decide (x ∉ p :: v) = true)]
        rw [if_pos (by simp [hxv] : decide (x ∉ v) = true)]
        simp only [List.length_cons]
        omega

theorem unvisitedCount_cons_lt (fs : List (List Char × List Char))
    (p : List Char) (v : List (List Char))
    (hp : p ∈ fs.map Prod.fst) (hv : p ∉ v) :
    unvisitedCount fs (p :: v) < unvisitedCount fs v := by
  unfold unvisitedCount
  exact filter_notmem_cons_lt p v hv (fs.map Prod.fst) hp

theorem resolveToks_visited (fs : List (List Char × List Char)) (parent : List Char)
    (resolver : List Char → List (List Char) → List Char × List (List Char))
    (hres : ∀ p v, v ⊆ (resolver p v).2 ∧ (v.Nodup → (resolver p v).2.Nodup)) :
    ∀ (toks : List TexTok) (v : List (List Char)),
      v ⊆ (resolveToks resolver fs parent toks v).2 ∧
        (v.Nodup → (resolveToks resolver fs parent toks v).2.Nodup) := by
  intro toks
  induction toks with
  | nil => intro v; simp [resolveToks_nil]
  | cons t ts ih =>
    intro v
    cases t with
    | text c =>
      rw [resolveToks_text]
      exact ih v
    | inp ref =>
      cases hf : find_tex_file fs ref parent with
      | none =>
        rw [resolveToks_inp_none resolver fs parent ref ts v hf]
        exact ih v
      | some child =>
        rw [resolveToks_inp_some resolver fs parent ref child ts v hf]
        constructor
        · exact fun x hx => (ih (resolver child v).2).1 ((hres child v).1 hx)
        · exact fun hnd => (ih (resolver child v).2).2 ((hres child v).2 hnd)

theorem resolve_tex_visited_invariant (fs : List (List Char × List Char)) :
    ∀ (fuel : Nat) (p : List Char) (v : List (List Char)),
      v ⊆ (resolve_tex_content fs fuel p v).2 ∧
        (v.Nodup → (resolve_tex_content fs fuel p v).2.Nodup) := by
  intro fuel
  induction fuel with
  | zero => intro p v; simp [resolve_tex_zero]
  | succ f ih =>
    intro p v
    by_cases hv : p ∈ v
    · rw [resolve_tex_visited fs f p v hv]
      simp
    · cases hl : List.lookup p fs with
      | none =>
        rw [resolve_tex_miss fs f p v hv hl]
        constructor
        · exact fun x hx => List.mem_cons_of_mem p hx
        · exact fun hnd => List.nodup_cons.mpr ⟨hv, hnd⟩
      | some content =>
        rw [resolve_tex_found fs f p content v hv hl]
        have hkey := resolveToks_visited fs (dirOf p)
          (fun q w => resolve_tex_content fs f q w) (fun q w => ih q w)
          (scanTex content) (p :: v)
        constructor
        · exact fun x hx => hkey.1 (List.mem_cons_of_mem p hx)
        · exact fun hnd => hkey.2 (List.nodup_cons.mpr ⟨hv, hnd⟩)

theorem resolveToks_stable (fs : List (List Char × List Char)) (parent : List Char)
    (fuelB : Nat)
    (r₁ r₂ : List Char → List (List Char) → List Char × List (List Char))
    (hmono : ∀ p v, v ⊆ (r₁ p v).2)
    (hagree : ∀ p v, unvisitedCount fs v < fuelB → r₁ p v = r₂ p v) :
    ∀ (toks : List TexTok) (v : List (List Char)), unvisitedCount fs v < fuelB →
      resolveToks r₁ fs parent toks v = resolveToks r₂ fs parent toks v := by
  intro toks
  induction toks with
  | nil => intro v _; rfl
  | cons t ts ih =>
    intro v hv
    cases t with
    | text c =>
      rw [resolveToks_text, resolveToks_text, ih v hv]
    | inp ref =>
      cases hf : find_tex_file fs ref parent with
      | none =>
        rw [resolveToks_inp_none r₁ fs parent ref ts v hf,
          resolveToks_inp_none r₂ fs parent ref ts v hf]
        exact ih v hv
      | some child =>
        rw [resolveToks_inp_some r₁ fs parent ref child ts v hf,
          resolveToks_inp_some r₂ fs parent ref child ts v hf]
        rw [← hagree child v hv]
        have hsub := hmono child v
        have hle : unvisitedCount fs (r₁ child v).2 ≤ unvisitedCount fs v :=
          unvisitedCount_anti fs v _ hsub
        rw [ih (r₁ child v).2 (by omega)]

theorem resolve_tex_stable (fs : List (List Char × List Char)) :
    ∀ (fuel : Nat) (p : List Char) (v : List (List Char)),
      unvisitedCount fs v < fuel →
      resolve_tex_content fs fuel p v = resolve_tex_content fs (fuel + 1) p v := by
  intro fuel
  induction fuel with
  | zero => intro p v h; exact absurd h (Nat.not_lt_zero _)
  | succ f ih =>
    intro p v h
    by_cases hv : p ∈ v
    · rw [resolve_tex_visited fs f p v hv, resolve_tex_visited fs (f + 1) p v hv]
    · cases hl : List.lookup p fs with
      | none => rw [resolve_tex_miss fs f p v hv hl, resolve_tex_miss fs (f + 1) p v hv hl]
      | some content =>
        rw [resolve_tex_found fs f p content v hv hl,
          resolve_tex_found fs (f + 1) p content v hv hl]
        have hp : p ∈ fs.map Prod.fst := lookup_mem_keys fs p content hl
        have hlt : unvisitedCount fs (p :: v) < f := by
          have := unvisitedCount_cons_lt fs p v hp hv
          omega
        exact resolveToks_stable fs (dirOf p) f
          (fun q w => resolve_tex_content fs f q w)
          (fun q w => resolve_tex_content fs (f + 1) q w)
          (fun q w => (resolve_tex_visited_invariant fs f q w).1)
          (fun q w hw => ih q w hw)
          (scanTex content) (p :: v) hlt

theorem resolve_tex_stable_add (fs : List (List Char × List Char)) :
    ∀ (k t : Nat) (p : List Char) (v : List (List Char)),
      unvisitedCount fs v < t →
      resolve_tex_content fs (t + k) p v = resolve_tex_content fs t p v := by
  intro k
  induction k with
  | zero => intro t p v _; rfl
  | succ n ih =>
    intro t p v h
    have h1 : unvisitedCount fs v < t + n := by omega
    calc resolve_tex_content fs (t + (n + 1)) p v
        = resolve_tex_content fs ((t + n) + 1) p v := rfl
      _ = resolve_tex_content fs (t + n) p v := (resolve_tex_stable fs (t + n) p v h1).symm
      _ = resolve_tex_content fs t p v := ih t p v h

/-- Claim C1: document assembly terminates for every root file and
source tree — any fuel beyond the number of files yields the same
result, so the recursion (whose depth the visited set bounds) is
well-defined; the visited set stays duplicate-free, so each source file
is expanded at most once per top-level call; and a file including
itself, directly or via a two-file cycle, assembles to its content
spliced exactly once, later occurrences expanding to empty text. -/
theorem C1_assembly_terminates :
    (∀ (fs : List (List Char × List Char)) (path : List Char)
        (visited : List (List Char)) (fuel : Nat), fs.length < fuel →
      resolve_tex_content fs fuel path visited =
        resolve_tex_content fs (fs.length + 1) path visited) ∧
    (∀ (fs : List (List Char × List Char)) (fuel : Nat) (path : List Char)
        (visited : List (List Char)), visited.Nodup →
      (resolve_tex_content fs fuel path visited).2.Nodup) ∧
    assembleTex [(String.toList "main.tex", String.toList "A\\input\x7bmain\x7d B")]
        (String.toList "main.tex") = String.toList "A B" ∧
    assembleTex [(String.toList "a.tex", String.toList "X\\input\x7bb\x7d"),
        (String.toList "b.tex", String.toList "Y\\include\x7ba\x7d")]
        (String.toList "a.tex") = String.toList "XY" := by
  refine ⟨?_, ?_, by decide, by decide⟩
  · intro fs path visited fuel hf
    have hu := unvisitedCount_le_length fs visited
    have e1 : resolve_tex_content fs fuel path visited =
        resolve_tex_content fs (unvisitedCount fs visited + 1) path visited := by
      have heq : fuel =
          (unvisitedCount fs visited + 1) + (fuel - (unvisitedCount fs visited + 1)) := by
        omega
      rw [heq]
      exact resolve_tex_stable_add fs _ _ path visited (by omega)
    have e2 : resolve_tex_content fs (fs.length + 1) path visited =
        resolve_tex_content fs (unvisitedCount fs visited + 1) path visited := by
      have heq : fs.length + 1 =
          (unvisitedCount fs visited + 1) + (fs.length - unvisitedCount fs visited) := by
        omega
      rw [heq]
      exact resolve_tex_stable_add fs _ _ path visited (by omega)
    rw [e1, e2]
  · intro fs fuel path visited hnd
    exact (resolve_tex_visited_invariant fs fuel path visited).2 hnd

/-- Witness for C1 at the self-including fixture: fuel 5 (strictly more
than the single file) gives the same result as the canonical fuel, and
the visited set built from the empty one is duplicate-free. -/
theorem C1_assembly_terminates_witness :
    resolve_tex_content
        [(String.toList "main.tex", String.toList "A\\input\x7bmain\x7d B")] 5
        (String.toList "main.tex") [] =
      resolve_tex_content
        [(String.toList "main.tex", String.toList "A\\input\x7bmain\x7d B")]
        ([(String.toList "main.tex", String.toList "A\\input\x7bmain\x7d B")].length + 1)
        (String.toList "main.tex") [] ∧
    (resolve_tex_content
        [(String.toList "main.tex", String.toList "A\\input\x7bmain\x7d B")] 5
        (String.toList "main.tex") []).2.Nodup :=
  ⟨C1_assembly_terminates.1
      [(String.toList "main.tex", String.toList "A\\input\x7bmain\x7d B")]
      (String.toList "main.tex") [] 5 (by decide),
   C1_assembly_terminates.2.1
      [(String.toList "main.tex", String.toList "A\\input\x7bmain\x7d B")] 5
      (String.toList "main.tex") [] (by decide)⟩
